import Mathlib

/-!
Verification of the explicit-state reachability explorer implemented in
`solution.py`.

The embedding follows the source file closely:

* `Memory` wraps the `frozendict` of variables as an association list with
  Python-dict update semantics (`updateKey` replaces the value at an existing
  key in place and appends a fresh key at the back, exactly as a `dict`
  update does).  All memories arising in a run are built from an initial
  literal by `Memory.set`, so the key order of equal-content memories
  coincides and structural equality of the embedding agrees with
  `frozendict` content equality.
* Python compares the transition functions stored in `Thread.states` by
  object identity.  The embedding therefore keeps an abstract type `F` of
  function identities (with decidable equality) together with an
  interpretation `Interp F` giving each identity its behaviour.  A
  transition function whose invocation makes `Thread.run` raise (the
  3-tuple returned by `nop` cannot be unpacked into four variables; an
  out-of-range program counter raises `IndexError` inside `pyGet`) is
  interpreted as `none`, and fallible operations return `Option`.
* Python `set`s whose iteration order matters for the traversal
  (`GlobalState.run`'s result and the worklist bookkeeping in `main`) are
  embedded as duplicate-free lists in insertion order; the final `used` and
  `transitions` sets of the breadth-first loop are independent of the
  iteration order, so fixing insertion order is harmless.
* The `while` loop of `main` is embedded as the fuel-indexed `exploreN`;
  `exploreN` returning `some st` with `st.queue = []` is exactly a run of
  the loop that terminates normally.
-/

/-- Python dict update for one key: replace the first occurrence of the key
(keeping its position) or append the binding at the back, as `new_vars[var] =
value` does on a `dict`. -/
def updateKey : List (String × Int) → String → Int → List (String × Int)
  | [], k, v => [(k, v)]
  | (k', v') :: rest, k, v =>
    if k' = k then (k, v) :: rest else (k', v') :: updateKey rest k v

/-- First-match lookup, as `dict.get`: `some v` for a bound key, `none`
(Python `None`) for an absent one. -/
def lookupKey : List (String × Int) → String → Option Int
  | [], _ => none
  | (k', v) :: rest, k => if k' = k then some v else lookupKey rest k

/-- `Memory` from `solution.py`: an immutable variable store
(`frozendict[str, Any]`; every value used by the program is an `int`). -/
structure Memory where
  vars : List (String × Int)
deriving DecidableEq, Repr

/-- `Memory.set(**kwargs)`: copy the dict and update every given key in
order. -/
def Memory.set (m : Memory) (kwargs : List (String × Int)) : Memory :=
  ⟨kwargs.foldl (fun vs kv => updateKey vs kv.1 kv.2) m.vars⟩

/-- `Memory.get(key)`: `self.vars.get(key)`. -/
def Memory.get (m : Memory) (k : String) : Option Int :=
  lookupKey m.vars k

/-- The behaviour of the transition functions of a model: Python stores the
functions themselves in `Thread.states` and compares them by identity, so the
embedding separates the identity (an element of `F`) from the behaviour
(`Interp F`).  `none` models an invocation on which `Thread.run` raises. -/
abbrev Interp (F : Type) := F → Memory → Memory → Option (Memory × Memory × Int × Bool)

/-- `Thread` from `solution.py` (field order as in the dataclass). -/
structure Thread (F : Type) where
  local_memory : Memory
  states : List F
  name : String
  current_state : Int
  is_running : Bool
deriving DecidableEq, Repr

/-- Python list indexing `l[i]` for an `int` index: negative indices count
from the back, anything out of range raises `IndexError` (embedded as
`none`). -/
def pyGet {α : Type} (l : List α) (i : Int) : Option α :=
  let j := if i < 0 then i + l.length else i
  if 0 ≤ j ∧ j < l.length then l.get? j.toNat else none

/-- `Thread.run(shared_memory)`: look up `states[current_state]`, call it on
`(shared_memory, local_memory)`, unpack the 4-tuple and rebuild the thread.
A failing lookup or a call that cannot be unpacked is `none`. -/
def Thread.run {F : Type} (interp : Interp F) (t : Thread F) (shared_memory : Memory) :
    Option (Thread F × Memory) :=
  match pyGet t.states t.current_state with
  | none => none
  | some f =>
    match interp f shared_memory t.local_memory with
    | none => none
    | some (new_shared, new_local, new_state, still_running) =>
      some (⟨new_local, t.states, t.name, new_state, still_running⟩, new_shared)

/-- `GlobalState` from `solution.py`: shared memory plus the thread list. -/
structure GlobalState (F : Type) where
  shared_memory : Memory
  threads : List (Thread F)
deriving DecidableEq, Repr

/-- `set.add`: insert an element unless it is already present (insertion
order kept for the embedding of iteration). -/
def insertNew {α : Type} [DecidableEq α] (l : List α) (x : α) : List α :=
  if x ∈ l then l else l ++ [x]

/-- The loop body of `GlobalState.run`, iterating over the remaining thread
indices and accumulating the result set.  A non-running thread is skipped;
for a running one the thread is stepped, the thread pool is copied with index
`i` replaced, and the resulting state is added to the set. -/
def runFrom {F : Type} [DecidableEq F] (interp : Interp F) (g : GlobalState F) :
    List Nat → List (GlobalState F) → Option (List (GlobalState F))
  | [], acc => some acc
  | i :: is, acc =>
    match g.threads.get? i with
    | none => none
    | some t =>
      if t.is_running then
        match Thread.run interp t g.shared_memory with
        | none => none
        | some (new_state, new_shared_memory) =>
          runFrom interp g is (insertNew acc ⟨new_shared_memory, g.threads.set i new_state⟩)
      else runFrom interp g is acc

/-- `GlobalState.run()`: the successor set of a configuration, ranging over
`range(len(self.threads))`. -/
def GlobalState.run {F : Type} [DecidableEq F] (interp : Interp F) (g : GlobalState F) :
    Option (List (GlobalState F)) :=
  runFrom interp g (List.range g.threads.length) []

/-- `Transition` from `solution.py`; the Python field `end` is a reserved
word in Lean and is embedded as `end_`. -/
structure Transition (F : Type) where
  start : GlobalState F
  end_ : GlobalState F
deriving DecidableEq, Repr

/-- The mutable state of the worklist loop in `main`: the visited set
`used`, the FIFO `queue` and the `transitions` set. -/
structure ExplorerState (F : Type) where
  used : List (GlobalState F)
  queue : List (GlobalState F)
  transitions : List (Transition F)
deriving DecidableEq, Repr

/-- The state of `main` just before its `while` loop: `used = set()`,
`queue = deque([initial])`, `transitions = set()`.  Note that the source adds
the initial configuration only to the queue, not to `used`. -/
def initExplorer {F : Type} (g : GlobalState F) : ExplorerState F :=
  ⟨[], [g], []⟩

/-- One iteration of the `while` loop of `main` after the popped `item` and
its successor set `succs` are known: record a transition per successor,
compute `clean_new_states = new_states.difference(used)`, add it to `used`
and extend the queue with it. -/
def expandState {F : Type} [DecidableEq F] (item : GlobalState F)
    (rest succs : List (GlobalState F)) (st : ExplorerState F) : ExplorerState F :=
  { used := st.used ++ succs.filter (fun s => decide (s ∉ st.used)),
    queue := rest ++ succs.filter (fun s => decide (s ∉ st.used)),
    transitions := succs.foldl (fun acc s => insertNew acc ⟨item, s⟩) st.transitions }

/-- The `while` loop of `main`, indexed by fuel: `some st` with
`st.queue = []` is a normally terminated run, `none` a run on which
`item.run()` raised. -/
def exploreN {F : Type} [DecidableEq F] (interp : Interp F) :
    Nat → ExplorerState F → Option (ExplorerState F)
  | 0, st => some st
  | n + 1, st =>
    match st.queue with
    | [] => some st
    | item :: rest =>
      match GlobalState.run interp item with
      | none => none
      | some succs => exploreN interp n (expandState item rest succs st)

/-- The visited set of a normally terminated run (`none` when the run
crashed, ran out of fuel, or has work left). -/
def finalUsed {F : Type} (r : Option (ExplorerState F)) : Option (List (GlobalState F)) :=
  match r with
  | some st => if st.queue.isEmpty then some st.used else none
  | none => none

/-- The transition set of a normally terminated run. -/
def finalTransitions {F : Type} (r : Option (ExplorerState F)) : Option (List (Transition F)) :=
  match r with
  | some st => if st.queue.isEmpty then some st.transitions else none
  | none => none

/-- One admissible step between configurations: `s` is an element of the
successor set of `g`. -/
def StepRel {F : Type} [DecidableEq F] (interp : Interp F) (g s : GlobalState F) : Prop :=
  ∃ l, GlobalState.run interp g = some l ∧ s ∈ l

/-- Reachability: the reflexive-transitive closure of `StepRel`. -/
def Reach {F : Type} [DecidableEq F] (interp : Interp F) :
    GlobalState F → GlobalState F → Prop :=
  Relation.ReflTransGen (StepRel interp)

/-- `s` arises from `g` by stepping the enabled thread at index `i`: the
shared memory is replaced by the memory returned by the step and the thread
pool has index `i` replaced by the stepped thread. -/
def candidate {F : Type} (interp : Interp F) (g : GlobalState F) (i : Nat)
    (s : GlobalState F) : Prop :=
  ∃ t new_state new_shared_memory,
    g.threads.get? i = some t ∧ t.is_running = true ∧
    Thread.run interp t g.shared_memory = some (new_state, new_shared_memory) ∧
    s = ⟨new_shared_memory, g.threads.set i new_state⟩

/-! ### The hardcoded model of `main` -/

/-- The identities of the transition functions appearing in `main`:
the single shared `nop` function and the lambdas of the two tables
(`p1`–`p4` for thread `P`, `q1`–`q3` for thread `Q`). -/
inductive MainF
  | nop | p1 | p2 | p3 | p4 | q1 | q2 | q3
deriving DecidableEq, Repr

/-- The behaviour of `main`'s transition functions.  `nop` returns a
3-tuple, so unpacking it in `Thread.run` raises: it is interpreted as
`none`.  The comparisons mirror Python: `shared.get('b') != 0` is true when
the key is absent (`None != 0`), `shared.get('a') == 0` is false when the
key is absent. -/
def mainInterp : Interp MainF := fun f shared loc =>
  match f with
  | .nop => none
  | .p1 => some (shared.set [("a", 1)], loc, 2, true)
  | .p2 =>
    if shared.get "b" ≠ some 0 then some (shared, loc, 2, true)
    else some (shared, loc, 3, true)
  | .p3 => some (shared, loc, 4, true)
  | .p4 => some (shared.set [("a", 0)], loc, 1, true)
  | .q1 => some (shared.set [("b", 1)], loc, 2, true)
  | .q2 =>
    if shared.get "a" = some 0 then some (shared, loc, 4, false)
    else some (shared, loc, 3, true)
  | .q3 => some (shared.set [("b", 0)], loc, 1, true)

/-- The transition table of thread `P`. -/
def pTable : List MainF := [.nop, .p1, .p2, .p3, .p4]

/-- The transition table of thread `Q`. -/
def qTable : List MainF := [.nop, .q1, .q2, .q3]

/-- `Memory(frozendict())`: the empty local memory of both threads. -/
def emptyMem : Memory := ⟨[]⟩

/-- Thread `P` of `main` at a given program counter (its local memory never
changes and it always keeps running). -/
def pThread (pc : Int) : Thread MainF := ⟨emptyMem, pTable, "P", pc, true⟩

/-- Thread `Q` of `main` at a given program counter and running flag. -/
def qThread (pc : Int) (r : Bool) : Thread MainF := ⟨emptyMem, qTable, "Q", pc, r⟩

/-- The initial configuration of `main`: shared `frozendict(a=0, b=0)`,
threads `P` and `Q` both at `current_state = 1`. -/
def mainInit : GlobalState MainF := ⟨⟨[("a", 0), ("b", 0)]⟩, [pThread 1, qThread 1 true]⟩

/-- The run of `main`'s loop, with fuel well beyond the 15 iterations the
loop needs. -/
def mainRun : Option (ExplorerState MainF) := exploreN mainInterp 64 (initExplorer mainInit)

/-- The terminal explorer state of `main`'s loop. -/
def mainFinal : ExplorerState MainF := mainRun.getD (initExplorer mainInit)


/-! ### Scenario A of the specification and small auxiliary models -/

/-- The single transition function of concrete scenario A:
`lambda (shared, local): (shared.set(x=1), local, 1, true)`. -/
inductive ScenF
  | setx1
deriving DecidableEq, Repr

/-- The behaviour of scenario A's transition function. -/
def scenInterp : Interp ScenF := fun _ shared loc =>
  some (shared.set [("x", 1)], loc, 1, true)

/-- Scenario A's initial configuration: one process with the one-entry table
at `pc = 0`, shared memory `{x: 0}`. -/
def scenInit : GlobalState ScenF :=
  ⟨⟨[("x", 0)]⟩, [⟨emptyMem, [ScenF.setx1], "A", 0, true⟩]⟩

/-- The configuration `{x: 1}` at `pc = 1` discovered by scenario A's first
step. -/
def scenC1 : GlobalState ScenF :=
  ⟨⟨[("x", 1)]⟩, [⟨emptyMem, [ScenF.setx1], "A", 1, true⟩]⟩

/-- A transition-function identity for small test models; its behaviour
keeps both memories, moves to `pc = 1` and clears the running flag. -/
inductive CxF
  | stop
deriving DecidableEq, Repr

/-- Behaviour of `CxF.stop`: `(shared, local, 1, False)`. -/
def cxInterp : Interp CxF := fun _ shared loc => some (shared, loc, 1, false)

/-- A configuration whose single thread is already not running. -/
def cxHalted : GlobalState CxF := ⟨emptyMem, [⟨emptyMem, [CxF.stop], "T", 0, false⟩]⟩

/-- A configuration whose single running thread stops after one step. -/
def cxG0 : GlobalState CxF := ⟨emptyMem, [⟨emptyMem, [CxF.stop], "T", 0, true⟩]⟩

/-- The unique successor of `cxG0`: the thread at `pc = 1`, not running. -/
def cxG1 : GlobalState CxF := ⟨emptyMem, [⟨emptyMem, [CxF.stop], "T", 1, false⟩]⟩


/-! ### Basic lemmas about the set embedding -/

theorem mem_insertNew {α : Type} [DecidableEq α] {l : List α} {x a : α} :
    a ∈ insertNew l x ↔ a ∈ l ∨ a = x := by
  unfold insertNew
  split
  · next h =>
    constructor
    · exact Or.inl
    · rintro (ha | rfl)
      · exact ha
      · exact h
  · simp [List.mem_append]

theorem nodup_insertNew {α : Type} [DecidableEq α] {l : List α} {x : α} (h : l.Nodup) :
    (insertNew l x).Nodup := by
  unfold insertNew
  split
  · exact h
  · next hx => simp [List.nodup_append, h, hx]

theorem mem_foldl_insertNew {α β : Type} [DecidableEq β] (f : α → β) :
    ∀ (l : List α) (acc : List β) (x : β),
      x ∈ l.foldl (fun a s => insertNew a (f s)) acc ↔ x ∈ acc ∨ ∃ s ∈ l, x = f s := by
  intro l
  induction l with
  | nil => simp
  | cons a l ih =>
    intro acc x
    simp only [List.foldl_cons, ih, mem_insertNew, List.mem_cons]
    constructor
    · rintro ((hx | rfl) | ⟨s, hs, rfl⟩)
      · exact Or.inl hx
      · exact Or.inr ⟨a, Or.inl rfl, rfl⟩
      · exact Or.inr ⟨s, Or.inr hs, rfl⟩
    · rintro (hx | ⟨s, (rfl | hs), rfl⟩)
      · exact Or.inl (Or.inl hx)
      · exact Or.inl (Or.inr rfl)
      · exact Or.inr ⟨s, hs, rfl⟩

/-! ### Characterization of the successor set -/

theorem runFrom_spec {F : Type} [DecidableEq F] (interp : Interp F) (g : GlobalState F) :
    ∀ (is : List Nat) (acc l : List (GlobalState F)),
      runFrom interp g is acc = some l →
      ((acc.Nodup → l.Nodup) ∧ ∀ s, s ∈ l ↔ s ∈ acc ∨ ∃ i ∈ is, candidate interp g i s) := by
  intro is
  induction is with
  | nil =>
    intro acc l h
    simp only [runFrom] at h
    cases h
    exact ⟨id, by simp⟩
  | cons i is ih =>
    intro acc l h
    simp only [runFrom] at h
    split at h
    · cases h
    · next t hget =>
      split at h
      · next hr =>
        split at h
        · cases h
        · next nt nsh hrun =>
          obtain ⟨hnd, hmem⟩ := ih _ _ h
          have hc : ∀ s, candidate interp g i s ↔ s = ⟨nsh, g.threads.set i nt⟩ := by
            intro s
            constructor
            · rintro ⟨t', nt', nsh', hget', hr', hrun', rfl⟩
              rw [hget] at hget'
              cases hget'
              rw [hrun] at hrun'
              cases hrun'
              rfl
            · rintro rfl
              exact ⟨t, nt, nsh, hget, hr, hrun, rfl⟩
          refine ⟨fun ha => hnd (nodup_insertNew ha), fun s => ?_⟩
          rw [hmem s, mem_insertNew]
          simp only [List.mem_cons]
          constructor
          · rintro ((hs | rfl) | ⟨j, hj, hcand⟩)
            · exact Or.inl hs
            · exact Or.inr ⟨i, Or.inl rfl, (hc _).mpr rfl⟩
            · exact Or.inr ⟨j, Or.inr hj, hcand⟩
          · rintro (hs | ⟨j, (rfl | hj), hcand⟩)
            · exact Or.inl (Or.inl hs)
            · exact Or.inl (Or.inr ((hc _).mp hcand))
            · exact Or.inr ⟨j, hj, hcand⟩
      · next hr =>
        obtain ⟨hnd, hmem⟩ := ih _ _ h
        have hc : ∀ s, ¬ candidate interp g i s := by
          rintro s ⟨t', _, _, hget', hr', _, _⟩
          rw [hget] at hget'
          cases hget'
          exact hr hr'
        refine ⟨hnd, fun s => ?_⟩
        rw [hmem s]
        simp only [List.mem_cons]
        constructor
        · rintro (hs | ⟨j, hj, hcand⟩)
          · exact Or.inl hs
          · exact Or.inr ⟨j, Or.inr hj, hcand⟩
        · rintro (hs | ⟨j, (rfl | hj), hcand⟩)
          · exact Or.inl hs
          · exact absurd hcand (hc s)
          · exact Or.inr ⟨j, hj, hcand⟩

theorem run_spec {F : Type} [DecidableEq F] (interp : Interp F) (g : GlobalState F)
    (l : List (GlobalState F)) (h : GlobalState.run interp g = some l) :
    l.Nodup ∧ ∀ s, s ∈ l ↔ ∃ i, candidate interp g i s := by
  obtain ⟨hnd, hmem⟩ := runFrom_spec interp g _ _ _ h
  refine ⟨hnd List.nodup_nil, fun s => ?_⟩
  rw [hmem s]
  simp only [List.not_mem_nil, false_or]
  constructor
  · rintro ⟨i, _, hcand⟩
    exact ⟨i, hcand⟩
  · rintro ⟨i, hcand⟩
    refine ⟨i, List.mem_range.mpr ?_, hcand⟩
    obtain ⟨t, _, _, hget, _⟩ := hcand
    exact (List.get?_eq_some.mp hget).1

theorem runFrom_all_stopped {F : Type} [DecidableEq F] (interp : Interp F) (g : GlobalState F)
    (hstop : ∀ t ∈ g.threads, t.is_running = false) :
    ∀ (is : List Nat) (acc : List (GlobalState F)), (∀ i ∈ is, i < g.threads.length) →
      runFrom interp g is acc = some acc := by
  intro is
  induction is with
  | nil => intro acc _; rfl
  | cons i is ih =>
    intro acc hlt
    have hi : i < g.threads.length := hlt i (List.mem_cons_self i is)
    have hget : g.threads.get? i = some (g.threads.get ⟨i, hi⟩) := List.get?_eq_get hi
    have hmem : g.threads.get ⟨i, hi⟩ ∈ g.threads := List.get_mem _ _ _
    simp only [runFrom, hget, hstop _ hmem]
    exact ih acc (fun j hj => hlt j (List.mem_cons_of_mem i hj))

/-- A configuration all of whose threads are stopped has the empty successor
set. -/
theorem run_all_stopped {F : Type} [DecidableEq F] (interp : Interp F) (g : GlobalState F)
    (hstop : ∀ t ∈ g.threads, t.is_running = false) :
    GlobalState.run interp g = some [] :=
  runFrom_all_stopped interp g hstop _ [] (fun _ hj => List.mem_range.mp hj)

theorem step_preserves_stopped {F : Type} [DecidableEq F] (interp : Interp F)
    {g s : GlobalState F} (hstep : StepRel interp g s) (i : Nat) (t : Thread F)
    (hget : g.threads.get? i = some t) (hr : t.is_running = false) :
    s.threads.get? i = some t := by
  obtain ⟨l, hl, hs⟩ := hstep
  obtain ⟨_, hmem⟩ := run_spec interp g l hl
  rw [hmem] at hs
  obtain ⟨j, tj, ntj, nshj, hgetj, hrj, _, rfl⟩ := hs
  have hij : j ≠ i := by
    rintro rfl
    rw [hget] at hgetj
    cases hgetj
    rw [hr] at hrj
    cases hrj
  simpa [List.getElem?_set_ne hij] using hget

/-! ### Invariants of the worklist loop -/

/-- The successor set of `c` was computed successfully and lies inside the
list `u`. -/
def Closed {F : Type} [DecidableEq F] (interp : Interp F) (u : List (GlobalState F))
    (c : GlobalState F) : Prop :=
  ∃ l, GlobalState.run interp c = some l ∧ ∀ s ∈ l, s ∈ u

/-- The invariant maintained by every iteration of the `while` loop of
`main`, for a loop started on `initExplorer g0`. -/
structure LoopInv {F : Type} [DecidableEq F] (interp : Interp F) (g0 : GlobalState F)
    (st : ExplorerState F) : Prop where
  queue_mem : ∀ c ∈ st.queue, c ∈ st.used ∨ c = g0
  used_closed : ∀ c ∈ st.used, c ∈ st.queue ∨ Closed interp st.used c
  init_closed : g0 ∈ st.queue ∨ Closed interp st.used g0
  trans_ok : ∀ tr ∈ st.transitions,
    (∃ l, GlobalState.run interp tr.start = some l ∧ tr.end_ ∈ l) ∧
    (tr.start ∈ st.used ∨ tr.start = g0) ∧ tr.end_ ∈ st.used

theorem closed_mono {F : Type} [DecidableEq F] {interp : Interp F}
    {u u' : List (GlobalState F)} {c : GlobalState F} (hsub : ∀ s ∈ u, s ∈ u')
    (h : Closed interp u c) : Closed interp u' c := by
  obtain ⟨l, hl, hmem⟩ := h
  exact ⟨l, hl, fun s hs => hsub s (hmem s hs)⟩

theorem loopInv_init {F : Type} [DecidableEq F] (interp : Interp F) (g0 : GlobalState F) :
    LoopInv interp g0 (initExplorer g0) := by
  constructor
  · intro c hc
    exact Or.inr (List.mem_singleton.mp hc)
  · intro c hc
    cases hc
  · exact Or.inl (List.mem_singleton.mpr rfl)
  · intro tr htr
    cases htr

theorem mem_used_expand {F : Type} [DecidableEq F] {item : GlobalState F}
    {rest succs : List (GlobalState F)} {st : ExplorerState F} {c : GlobalState F} :
    c ∈ (expandState item rest succs st).used ↔ c ∈ st.used ∨ c ∈ succs := by
  simp only [expandState, List.mem_append, List.mem_filter, decide_eq_true_eq]
  constructor
  · rintro (h | ⟨h, _⟩)
    · exact Or.inl h
    · exact Or.inr h
  · intro h
    rcases h with h | h
    · exact Or.inl h
    · by_cases hu : c ∈ st.used
      · exact Or.inl hu
      · exact Or.inr ⟨h, hu⟩

theorem mem_queue_expand {F : Type} [DecidableEq F] {item : GlobalState F}
    {rest succs : List (GlobalState F)} {st : ExplorerState F} {c : GlobalState F} :
    c ∈ (expandState item rest succs st).queue ↔ c ∈ rest ∨ (c ∈ succs ∧ c ∉ st.used) := by
  simp only [expandState, List.mem_append, List.mem_filter, decide_eq_true_eq]

theorem mem_transitions_expand {F : Type} [DecidableEq F] {item : GlobalState F}
    {rest succs : List (GlobalState F)} {st : ExplorerState F} {tr : Transition F} :
    tr ∈ (expandState item rest succs st).transitions ↔
      tr ∈ st.transitions ∨ ∃ s ∈ succs, tr = ⟨item, s⟩ :=
  mem_foldl_insertNew (fun s => (⟨item, s⟩ : Transition F)) succs st.transitions tr

theorem loopInv_step {F : Type} [DecidableEq F] (interp : Interp F) (g0 : GlobalState F)
    {item : GlobalState F} {rest succs : List (GlobalState F)} {st : ExplorerState F}
    (hq : st.queue = item :: rest) (hrun : GlobalState.run interp item = some succs)
    (hinv : LoopInv interp g0 st) : LoopInv interp g0 (expandState item rest succs st) := by
  have hused_sub : ∀ c ∈ st.used, c ∈ (expandState item rest succs st).used :=
    fun c hc => mem_used_expand.mpr (Or.inl hc)
  have hsuccs_sub : ∀ s ∈ succs, s ∈ (expandState item rest succs st).used :=
    fun s hs => mem_used_expand.mpr (Or.inr hs)
  have hitem : item ∈ st.used ∨ item = g0 :=
    hinv.queue_mem item (hq ▸ List.mem_cons_self item rest)
  have hitem_closed : Closed interp (expandState item rest succs st).used item :=
    ⟨succs, hrun, hsuccs_sub⟩
  constructor
  · intro c hc
    rcases mem_queue_expand.mp hc with h | ⟨h, _⟩
    · rcases hinv.queue_mem c (hq ▸ List.mem_cons_of_mem item h) with h' | h'
      · exact Or.inl (hused_sub c h')
      · exact Or.inr h'
    · exact Or.inl (hsuccs_sub c h)
  · intro c hc
    rcases mem_used_expand.mp hc with h | h
    · rcases hinv.used_closed c h with h' | h'
      · rw [hq] at h'
        rcases List.mem_cons.mp h' with rfl | h''
        · exact Or.inr hitem_closed
        · exact Or.inl (mem_queue_expand.mpr (Or.inl h''))
      · exact Or.inr (closed_mono hused_sub h')
    · by_cases hu : c ∈ st.used
      · rcases hinv.used_closed c hu with h' | h'
        · rw [hq] at h'
          rcases List.mem_cons.mp h' with rfl | h''
          · exact Or.inr hitem_closed
          · exact Or.inl (mem_queue_expand.mpr (Or.inl h''))
        · exact Or.inr (closed_mono hused_sub h')
      · exact Or.inl (mem_queue_expand.mpr (Or.inr ⟨h, hu⟩))
  · rcases hinv.init_closed with h | h
    · rw [hq] at h
      rcases List.mem_cons.mp h with rfl | h'
      · exact Or.inr hitem_closed
      · exact Or.inl (mem_queue_expand.mpr (Or.inl h'))
    · exact Or.inr (closed_mono hused_sub h)
  · intro tr htr
    rcases mem_transitions_expand.mp htr with h | ⟨s, hs, rfl⟩
    · obtain ⟨hstep, hstart, hend⟩ := hinv.trans_ok tr h
      refine ⟨hstep, ?_, hused_sub _ hend⟩
      rcases hstart with h' | h'
      · exact Or.inl (hused_sub _ h')
      · exact Or.inr h'
    · refine ⟨⟨succs, hrun, hs⟩, ?_, hsuccs_sub s hs⟩
      rcases hitem with h' | h'
      · exact Or.inl (hused_sub _ h')
      · exact Or.inr h'

theorem exploreN_loopInv {F : Type} [DecidableEq F] (interp : Interp F) (g0 : GlobalState F) :
    ∀ (n : Nat) (st st' : ExplorerState F), LoopInv interp g0 st →
      exploreN interp n st = some st' → LoopInv interp g0 st' := by
  intro n
  induction n with
  | zero =>
    intro st st' hinv h
    cases h
    exact hinv
  | succ n ih =>
    intro st st' hinv h
    simp only [exploreN] at h
    split at h
    · cases h
      exact hinv
    · next item rest hq =>
      split at h
      · cases h
      · next succs hrun =>
        exact ih _ _ (loopInv_step interp g0 hq hrun hinv) h

/-- At normal termination of the loop every expanded configuration and the
initial configuration have their whole successor set inside `used`. -/
theorem terminated_closure {F : Type} [DecidableEq F] (interp : Interp F)
    (g0 : GlobalState F) (n : Nat) (st : ExplorerState F)
    (hrun : exploreN interp n (initExplorer g0) = some st) (hterm : st.queue = []) :
    (∀ c ∈ st.used, Closed interp st.used c) ∧ Closed interp st.used g0 := by
  have hinv := exploreN_loopInv interp g0 n _ st (loopInv_init interp g0) hrun
  constructor
  · intro c hc
    rcases hinv.used_closed c hc with h | h
    · rw [hterm] at h
      cases h
    · exact h
  · rcases hinv.init_closed with h | h
    · rw [hterm] at h
      cases h
    · exact h

/-- Any collection closed under successors and containing the successors of
`g0` contains everything reachable from `g0`. -/
theorem reach_mem_closure {F : Type} [DecidableEq F] (interp : Interp F)
    {u : List (GlobalState F)} {g0 : GlobalState F}
    (hc : ∀ c ∈ u, Closed interp u c) (h0 : Closed interp u g0) :
    ∀ s, Reach interp g0 s → s = g0 ∨ s ∈ u := by
  intro s h
  induction h with
  | refl => exact Or.inl rfl
  | tail hab hbc ih =>
    obtain ⟨l, hl, hs⟩ := hbc
    rcases ih with rfl | hb
    · obtain ⟨l0, hl0, hsub⟩ := h0
      rw [hl0] at hl
      cases hl
      exact Or.inr (hsub _ hs)
    · obtain ⟨l', hl', hsub⟩ := hc _ hb
      rw [hl'] at hl
      cases hl
      exact Or.inr (hsub _ hs)

/-- Once the loop runs out with `none` (a raise inside `item.run()`), more
fuel does not change that. -/
theorem exploreN_none_mono {F : Type} [DecidableEq F] (interp : Interp F) :
    ∀ (n m : Nat) (st : ExplorerState F), exploreN interp n st = none →
      exploreN interp (n + m) st = none := by
  intro n
  induction n with
  | zero =>
    intro m st h
    cases h
  | succ n ih =>
    intro m st h
    have harr : n + 1 + m = (n + m) + 1 := by omega
    rw [harr]
    simp only [exploreN] at h ⊢
    cases hq : st.queue with
    | nil =>
      simp only [hq] at h
      cases h
    | cons item rest =>
      simp only [hq] at h ⊢
      cases hr : GlobalState.run interp item with
      | none => simp only [hr]
      | some succs =>
        simp only [hr] at h ⊢
        exact ih m _ h

/-! ### Lemmas about `Memory` -/

theorem lookupKey_updateKey_self (vs : List (String × Int)) (k : String) (v : Int) :
    lookupKey (updateKey vs k v) k = some v := by
  induction vs with
  | nil => simp [updateKey, lookupKey]
  | cons kv rest ih =>
    obtain ⟨k', v'⟩ := kv
    by_cases h : k' = k
    · simp [updateKey, lookupKey, h]
    · simp [updateKey, lookupKey, h, ih]

theorem lookupKey_updateKey_ne (vs : List (String × Int)) (k k0 : String) (v : Int)
    (h : k0 ≠ k) : lookupKey (updateKey vs k v) k0 = lookupKey vs k0 := by
  induction vs with
  | nil => simp [updateKey, lookupKey, Ne.symm h]
  | cons kv rest ih =>
    obtain ⟨k', v'⟩ := kv
    by_cases h' : k' = k
    · subst h'
      simp [updateKey, lookupKey, Ne.symm h]
    · by_cases h0 : k' = k0
      · simp [updateKey, lookupKey, h', h0, h]
      · simp [updateKey, lookupKey, h', h0, ih]

theorem memory_set_cons (m : Memory) (kv : String × Int) (kvs : List (String × Int)) :
    m.set (kv :: kvs) = (Memory.mk (updateKey m.vars kv.1 kv.2)).set kvs := rfl

/-- `Memory.set` binds every given key (given distinct keys, as Python
keyword arguments always are) and leaves every other key unchanged. -/
theorem memory_set_spec (m : Memory) (kwargs : List (String × Int))
    (hnodup : (kwargs.map Prod.fst).Nodup) :
    (∀ kv ∈ kwargs, (m.set kwargs).get kv.1 = some kv.2) ∧
    (∀ k, k ∉ kwargs.map Prod.fst → (m.set kwargs).get k = m.get k) := by
  induction kwargs generalizing m with
  | nil => exact ⟨by simp, fun k _ => rfl⟩
  | cons kv kvs ih =>
    have hnd : (kvs.map Prod.fst).Nodup := (List.nodup_cons.mp (by simpa using hnodup)).2
    have hk : kv.1 ∉ kvs.map Prod.fst := (List.nodup_cons.mp (by simpa using hnodup)).1
    obtain ⟨ih1, ih2⟩ := ih (Memory.mk (updateKey m.vars kv.1 kv.2)) hnd
    constructor
    · intro kv' hkv'
      rcases List.mem_cons.mp hkv' with rfl | h
      · rw [memory_set_cons, ih2 kv'.1 hk]
        exact lookupKey_updateKey_self m.vars kv'.1 kv'.2
      · rw [memory_set_cons]
        exact ih1 kv' h
    · intro k hkmem
      have hk1 : k ∉ kvs.map Prod.fst := fun h => hkmem (List.mem_cons_of_mem _ h)
      have hkne : k ≠ kv.1 := by
        rintro rfl
        exact hkmem (by simp)
      rw [memory_set_cons, ih2 k hk1]
      exact lookupKey_updateKey_ne m.vars kv.1 k kv.2 hkne

/-- The successor of `mainInit` obtained by stepping `P` (pc 1 sets `a = 1`
and moves to pc 2). -/
def mainS1 : GlobalState MainF := ⟨⟨[("a", 1), ("b", 0)]⟩, [pThread 2, qThread 1 true]⟩

/-- The successor of `mainInit` obtained by stepping `Q` (pc 1 sets `b = 1`
and moves to pc 2). -/
def mainS2 : GlobalState MainF := ⟨⟨[("a", 0), ("b", 1)]⟩, [pThread 1, qThread 2 true]⟩


/-- The run of `main`'s loop evaluates to `mainFinal`. -/
theorem mainRun_eq : exploreN mainInterp 64 (initExplorer mainInit) = some mainFinal := rfl

/-- The run of `main`'s loop terminates: the final queue is empty. -/
theorem mainFinal_queue_empty : mainFinal.queue = [] := rfl

/-! ### The claims -/

/-- C1, counterexample: the loop state built by `main` for an initial
configuration starts with an empty visited set (`used = set()`), and for the
initial configuration `cxHalted`, whose only thread is not running, the loop
terminates with `used` still empty — the initial configuration is neither in
the visited set at initialization nor at termination. -/
theorem c1_counterexample :
    cxHalted ∉ (initExplorer cxHalted).used ∧
    finalUsed (exploreN cxInterp 2 (initExplorer cxHalted)) = some [] ∧
    cxHalted ∉ ([] : List (GlobalState CxF)) :=
  ⟨by decide, rfl, by decide⟩

/-- C1 (amended): the Explorer initializes its visited set to the empty set
(the initial configuration is placed only on the queue); the initial
configuration ends up in the final visited set only when it is rediscovered
as a successor of a reachable configuration — as does happen in the run of
`main`, which terminates with the initial configuration in `used`. -/
theorem c1_visited_init_empty_main_rediscovers :
    (∀ (F : Type) (g : GlobalState F), (initExplorer g).used = []) ∧
    finalUsed mainRun = some mainFinal.used ∧ mainInit ∈ mainFinal.used :=
  ⟨fun _ _ => rfl, rfl, by decide⟩

/-- C2: fix-point closure — when the exploration loop terminates, every
configuration in the final visited set has its whole successor set inside
the final visited set. -/
theorem c2_fixpoint_closure {F : Type} [DecidableEq F] (interp : Interp F)
    (g0 : GlobalState F) (n : Nat) (st : ExplorerState F)
    (hrun : exploreN interp n (initExplorer g0) = some st) (hterm : st.queue = [])
    (c : GlobalState F) (hc : c ∈ st.used) (l : List (GlobalState F))
    (hl : GlobalState.run interp c = some l) : ∀ s ∈ l, s ∈ st.used := by
  obtain ⟨hclosed, _⟩ := terminated_closure interp g0 n st hrun hterm
  obtain ⟨l', hl', hsub⟩ := hclosed c hc
  rw [hl] at hl'
  cases hl'
  exact hsub

/-- Witness for C2 on the run of `main`: the loop terminates, `mainInit` is
in the final visited set, its successor set is `[mainS1, mainS2]`, and
`mainS1` is in the final visited set. -/
theorem c2_fixpoint_closure_witness :
    exploreN mainInterp 64 (initExplorer mainInit) = some mainFinal ∧
    mainFinal.queue = [] ∧ mainInit ∈ mainFinal.used ∧
    GlobalState.run mainInterp mainInit = some [mainS1, mainS2] ∧
    mainS1 ∈ mainFinal.used :=
  ⟨mainRun_eq, mainFinal_queue_empty, by decide, by decide,
    c2_fixpoint_closure mainInterp mainInit 64 mainFinal mainRun_eq mainFinal_queue_empty mainInit (by decide)
      [mainS1, mainS2] (by decide) mainS1 (List.mem_cons_self _ _)⟩

/-- C3: `successors()` is exactly the set of configurations obtained by
stepping each enabled thread — every element of the result arises from an
enabled index by replacing the shared memory and the stepped thread, every
enabled index contributes its candidate, no candidate arises from a
non-enabled index, and identical candidates collapse (the result has no
duplicates). -/
theorem c3_successors_exact {F : Type} [DecidableEq F] (interp : Interp F)
    (g : GlobalState F) (l : List (GlobalState F))
    (h : GlobalState.run interp g = some l) :
    l.Nodup ∧ ∀ s, s ∈ l ↔ ∃ i, candidate interp g i s :=
  run_spec interp g l h

/-- Witness for C3 at the initial configuration of `main`. -/
theorem c3_successors_exact_witness :
    GlobalState.run mainInterp mainInit = some [mainS1, mainS2] ∧
    ([mainS1, mainS2].Nodup ∧
      ∀ s, s ∈ [mainS1, mainS2] ↔ ∃ i, candidate mainInterp mainInit i s) :=
  ⟨by decide, c3_successors_exact mainInterp mainInit [mainS1, mainS2] (by decide)⟩

/-- C4, counterexample: for the model whose single running thread stops
after one step, the loop terminates with `used = [cxG1]` and the transition
`cxG0 → cxG1` recorded, whose start `cxG0` (the initial configuration) is
not in the final visited set. -/
theorem c4_counterexample :
    finalUsed (exploreN cxInterp 3 (initExplorer cxG0)) = some [cxG1] ∧
    finalTransitions (exploreN cxInterp 3 (initExplorer cxG0)) = some [⟨cxG0, cxG1⟩] ∧
    cxG0 ∉ [cxG1] :=
  ⟨rfl, rfl, by decide⟩

/-- C4 (amended): every transition of the final transition set has its end
in the final visited set, and its start either in the final visited set or
equal to the initial configuration (the start can miss the visited set only
when it is the initial configuration, which `main` never adds to `used`
directly). -/
theorem c4_transition_endpoints {F : Type} [DecidableEq F] (interp : Interp F)
    (g0 : GlobalState F) (n : Nat) (st : ExplorerState F)
    (hrun : exploreN interp n (initExplorer g0) = some st) (_hterm : st.queue = [])
    (tr : Transition F) (htr : tr ∈ st.transitions) :
    tr.end_ ∈ st.used ∧ (tr.start ∈ st.used ∨ tr.start = g0) := by
  have hinv := exploreN_loopInv interp g0 n _ st (loopInv_init interp g0) hrun
  obtain ⟨_, hstart, hend⟩ := hinv.trans_ok tr htr
  exact ⟨hend, hstart⟩

/-- Witness for C4 on the run of `main`, at the transition
`mainInit → mainS1`. -/
theorem c4_transition_endpoints_witness :
    exploreN mainInterp 64 (initExplorer mainInit) = some mainFinal ∧
    mainFinal.queue = [] ∧
    (⟨mainInit, mainS1⟩ : Transition MainF) ∈ mainFinal.transitions ∧
    (mainS1 ∈ mainFinal.used ∧ (mainInit ∈ mainFinal.used ∨ mainInit = mainInit)) :=
  ⟨mainRun_eq, mainFinal_queue_empty, by decide,
    c4_transition_endpoints mainInterp mainInit 64 mainFinal mainRun_eq mainFinal_queue_empty
      ⟨mainInit, mainS1⟩ (by decide)⟩

/-- C5, counterexample: invoking `Thread.run` on a thread whose running
flag is false does not fail — with a valid program counter it returns the
updated thread, because the source never checks `is_running` inside
`Thread.run`. -/
theorem c5_counterexample :
    Thread.run cxInterp ⟨emptyMem, [CxF.stop], "T", 0, false⟩ emptyMem =
      some (⟨emptyMem, [CxF.stop], "T", 1, false⟩, emptyMem) :=
  rfl

/-- C5 (amended): `Thread.run` performs no check of the running flag — its
result is entirely independent of `is_running`, and invoking it on a
non-running thread with a valid program counter steps normally instead of
failing; checking enabledness is left to the caller (`GlobalState.run`
skips non-running threads). -/
theorem c5_step_ignores_running_flag :
    (∀ (F : Type) (interp : Interp F) (lm : Memory) (sts : List F) (nm : String)
        (pc : Int) (b₁ b₂ : Bool) (sh : Memory),
      Thread.run interp ⟨lm, sts, nm, pc, b₁⟩ sh = Thread.run interp ⟨lm, sts, nm, pc, b₂⟩ sh) ∧
    (Thread.run cxInterp ⟨emptyMem, [CxF.stop], "T", 0, false⟩ emptyMem).isSome = true :=
  ⟨fun _ _ _ _ _ _ _ _ _ => rfl, rfl⟩

/-- C6: a configuration all of whose threads have `is_running = false` is
terminal — its successor set is empty — and at termination of the loop no
recorded transition starts in such a configuration. -/
theorem c6_terminal_configurations {F : Type} [DecidableEq F] (interp : Interp F)
    (g0 : GlobalState F) (n : Nat) (st : ExplorerState F)
    (hrun : exploreN interp n (initExplorer g0) = some st) (_hterm : st.queue = []) :
    (∀ g : GlobalState F, (∀ t ∈ g.threads, t.is_running = false) →
      GlobalState.run interp g = some []) ∧
    (∀ tr ∈ st.transitions, ¬ (∀ t ∈ tr.start.threads, t.is_running = false)) := by
  refine ⟨fun g hstop => run_all_stopped interp g hstop, fun tr htr hstop => ?_⟩
  have hinv := exploreN_loopInv interp g0 n _ st (loopInv_init interp g0) hrun
  obtain ⟨⟨l, hl, hend⟩, _, _⟩ := hinv.trans_ok tr htr
  rw [run_all_stopped interp tr.start hstop] at hl
  cases hl
  cases hend

/-- A configuration of `main`'s model with both threads stopped, used to
instantiate the terminal-configuration claim. -/
def gAllStop : GlobalState MainF :=
  ⟨emptyMem, [⟨emptyMem, pTable, "P", 1, false⟩, ⟨emptyMem, qTable, "Q", 4, false⟩]⟩

/-- Witness for C6 on the run of `main`: the all-stopped configuration has
an empty successor set, and the recorded transition `mainInit → mainS1`
does not start in an all-stopped configuration. -/
theorem c6_terminal_configurations_witness :
    exploreN mainInterp 64 (initExplorer mainInit) = some mainFinal ∧
    mainFinal.queue = [] ∧
    (∀ t ∈ gAllStop.threads, t.is_running = false) ∧
    GlobalState.run mainInterp gAllStop = some [] ∧
    (⟨mainInit, mainS1⟩ : Transition MainF) ∈ mainFinal.transitions ∧
    ¬ (∀ t ∈ mainInit.threads, t.is_running = false) :=
  ⟨mainRun_eq, mainFinal_queue_empty, by decide,
    (c6_terminal_configurations mainInterp mainInit 64 mainFinal mainRun_eq mainFinal_queue_empty).1 gAllStop (by decide),
    by decide,
    (c6_terminal_configurations mainInterp mainInit 64 mainFinal mainRun_eq mainFinal_queue_empty).2
      ⟨mainInit, mainS1⟩ (by decide)⟩

/-- C7, counterexample: running the explorer machinery of `main` on the
scenario-A model does not terminate with any final sets — at the second
iteration the single thread is at `current_state = 1` while its table has
only index 0, so `states[1]` raises `IndexError` and the whole run fails. -/
theorem c7_counterexample :
    exploreN scenInterp 2 (initExplorer scenInit) = none ∧
    finalUsed (exploreN scenInterp 2 (initExplorer scenInit)) = none :=
  ⟨rfl, rfl⟩

/-- C7 (amended): on scenario A the exploration crashes instead of
completing — after one iteration it has visited exactly the one
configuration `{x:1}`-pc1 and recorded the one transition pc0 → pc1, and
every continuation (any fuel of at least two iterations) aborts, because
stepping the pc1 configuration indexes the one-entry table out of range. -/
theorem c7_scenario_a_crashes :
    exploreN scenInterp 1 (initExplorer scenInit) =
      some ⟨[scenC1], [scenC1], [⟨scenInit, scenC1⟩]⟩ ∧
    (∀ n : Nat, exploreN scenInterp (2 + n) (initExplorer scenInit) = none) ∧
    Thread.run scenInterp ⟨emptyMem, [ScenF.setx1], "A", 1, true⟩ ⟨[("x", 1)]⟩ = none :=
  ⟨rfl, fun n => exploreN_none_mono scenInterp 2 n (initExplorer scenInit) rfl, rfl⟩

/-- C8: `Memory.set` returns a new `Memory` in which every key of the
assignment mapping (whose keys are distinct, as Python keyword arguments
always are) is bound to its given value and every unmentioned key keeps the
receiver's value.  The receiver itself is untouched by construction: the
embedding is pure and `Memory.set` builds a fresh value from a copy of the
receiver's dict, exactly as the source does. -/
theorem c8_memory_set_frame (m : Memory) (kwargs : List (String × Int))
    (hnodup : (kwargs.map Prod.fst).Nodup) :
    (∀ kv ∈ kwargs, (m.set kwargs).get kv.1 = some kv.2) ∧
    (∀ k, k ∉ kwargs.map Prod.fst → (m.set kwargs).get k = m.get k) :=
  memory_set_spec m kwargs hnodup

/-- Witness for C8: updating `a` in `{a: 0, b: 7}` binds `a` to the new
value and leaves `b` alone. -/
theorem c8_memory_set_frame_witness :
    ([("a", (5 : Int))].map Prod.fst).Nodup ∧
    ((∀ kv ∈ [("a", (5 : Int))],
        ((Memory.mk [("a", 0), ("b", 7)]).set [("a", 5)]).get kv.1 = some kv.2) ∧
      (∀ k, k ∉ [("a", (5 : Int))].map Prod.fst →
        ((Memory.mk [("a", 0), ("b", 7)]).set [("a", 5)]).get k =
          (Memory.mk [("a", 0), ("b", 7)]).get k)) :=
  ⟨by decide, c8_memory_set_frame ⟨[("a", 0), ("b", 7)]⟩ [("a", 5)] (by decide)⟩

/-- C9: once a thread's running flag is false it stays false — in every
configuration reachable from a configuration whose thread at index `i` is
not running, the thread at index `i` is still the very same (non-running)
thread: the explorer never steps a non-enabled thread and a step replaces
only the stepped index. -/
theorem c9_running_false_permanent {F : Type} [DecidableEq F] (interp : Interp F)
    (g s : GlobalState F) (h : Reach interp g s) (i : Nat) (t : Thread F)
    (hget : g.threads.get? i = some t) (hr : t.is_running = false) :
    s.threads.get? i = some t := by
  induction h with
  | refl => exact hget
  | tail hab hbc ih => exact step_preserves_stopped interp hbc i t ih hr

/-- Witness for C9 at the halted one-thread configuration (reachability by
reflexivity). -/
theorem c9_running_false_permanent_witness :
    Reach cxInterp cxHalted cxHalted ∧
    cxHalted.threads.get? 0 = some ⟨emptyMem, [CxF.stop], "T", 0, false⟩ ∧
    (⟨emptyMem, [CxF.stop], "T", 0, false⟩ : Thread CxF).is_running = false ∧
    cxHalted.threads.get? 0 = some ⟨emptyMem, [CxF.stop], "T", 0, false⟩ :=
  ⟨Relation.ReflTransGen.refl, rfl, rfl,
    c9_running_false_permanent cxInterp cxHalted cxHalted Relation.ReflTransGen.refl 0
      ⟨emptyMem, [CxF.stop], "T", 0, false⟩ rfl rfl⟩

/-- C10: in the exploration run defined in `main`, no configuration
reachable from the initial configuration has a thread at
`current_state = 0`; consequently the `nop` entry is never invoked —
stepping any reachable configuration succeeds (`GlobalState.run` returns
`some`), so the unpacking failure `nop` would cause is unreachable. -/
theorem c10_no_pc_zero_reachable (s : GlobalState MainF)
    (h : Reach mainInterp mainInit s) :
    (∀ t ∈ s.threads, t.current_state ≠ 0) ∧
    ∃ l, GlobalState.run mainInterp s = some l := by
  obtain ⟨hclosed, h0⟩ :=
    terminated_closure mainInterp mainInit 64 mainFinal mainRun_eq mainFinal_queue_empty
  rcases reach_mem_closure mainInterp hclosed h0 s h with rfl | hs
  · refine ⟨by decide, ?_⟩
    obtain ⟨l, hl, _⟩ := h0
    exact ⟨l, hl⟩
  · have hall : ∀ c ∈ mainFinal.used, ∀ t ∈ c.threads, t.current_state ≠ 0 := by decide
    refine ⟨hall s hs, ?_⟩
    obtain ⟨l, hl, _⟩ := hclosed s hs
    exact ⟨l, hl⟩

/-- Witness for C10 at the initial configuration itself. -/
theorem c10_no_pc_zero_reachable_witness :
    Reach mainInterp mainInit mainInit ∧
    ((∀ t ∈ mainInit.threads, t.current_state ≠ 0) ∧
      ∃ l, GlobalState.run mainInterp mainInit = some l) :=
  ⟨Relation.ReflTransGen.refl, c10_no_pc_zero_reachable mainInit Relation.ReflTransGen.refl⟩
